import Mathlib

/-!
Verification of the `golang_lab` lessons.

This file gives a shallow embedding of two parts of the repository and
proves the specification's claims about them:

* the worker-pool / pipeline example of the concurrency lesson
  (`src/lesson08-concurrency/main.go`): channels become lists, the
  concurrent pool becomes an explicit labelled transition system whose
  schedules range over all interleavings of the producer's sends, the
  close of the jobs channel, and each worker's dequeue/enqueue steps;

* the user CRUD handlers of the JSON/REST lesson: the global
  `users` map and `nextUserID` counter become a `ServerState`, and each
  handler a pure function from state and request to state and response.
-/

namespace GolangLab

/-! ## Pipeline functions (lesson08-concurrency) -/

/-- `generateNumbers` (lesson08): the goroutine sends `1, 2, ..., count` on a
fresh channel in ascending order and then closes it.  Embedded as the list of
values sent, in order.  A non-positive `count` yields the empty list, exactly
as the Go loop `for i := 1; i <= count; i++` sends nothing. -/
def generateNumbers (count : Int) : List Int :=
  (List.range count.toNat).map (fun (i : Nat) => (i : Int) + 1)

/-- `squareNumbers` (lesson08): reads each number from the input channel and
sends its square on the output channel, preserving order. -/
def squareNumbers (input : List Int) : List Int :=
  input.map (fun num => num * num)

/-- The transformation a pool worker applies to each job (`worker` in
lesson08 does `results <- job * 2`). -/
def workerTransform (job : Int) : Int := job * 2

/-- A single worker's processing of the whole stream of jobs it receives
(`worker` in lesson08): each received job yields `job * 2`, in order. -/
def worker (jobs : List Int) : List Int := jobs.map workerTransform

/-- `numWorkers` in `demonstrateWorkerPool`. -/
def numWorkers : Nat := 3

/-- `numJobs` in `demonstrateWorkerPool`. -/
def numJobs : Int := 9

/-! ## The worker pool as a labelled transition system

`demonstrateWorkerPool` starts `W` workers on a shared `jobs` channel, sends
the jobs `1..N`, closes `jobs`, and collects `N` results from `results`.
The state records the producer's remaining jobs (`toSend`), whether `jobs`
has been closed (`closed`), the buffered contents of the `jobs` channel
(`intake`), each worker's in-flight job if it has dequeued one but not yet
sent its result (`workers`), and the results sent so far (`outtake`). -/

/-- State of the pool: producer, jobs channel, workers, results channel. -/
structure PoolState where
  toSend : List Int
  closed : Bool
  intake : List Int
  workers : List (Option Int)
  outtake : List Int
deriving DecidableEq

/-- Events of the pool.  Only the producer performs `send` and `closeJobs`;
`take w` and `push w` are the two halves of worker `w`'s loop body
(`for job := range jobs { ...; results <- job * 2 }`). -/
inductive Step where
  | send (j : Int)
  | closeJobs
  | take (w : Nat)
  | push (w : Nat)
deriving DecidableEq

/-- One step of the pool, parameterised by the per-job transformation `f`
(`job * 2` in the source).  `none` means the event is not enabled:
the producer sends its pending jobs in order and may close only after the
last send; a worker can dequeue the head of the jobs channel only when it
holds no in-flight job, and can push a result only when it holds one. -/
def execStep (f : Int → Int) (s : PoolState) (a : Step) : Option PoolState :=
  match a with
  | Step.send j =>
      match s.toSend with
      | [] => none
      | j' :: rest =>
          if s.closed then none
          else if j = j' then
            some { s with toSend := rest, intake := s.intake ++ [j'] }
          else none
  | Step.closeJobs =>
      if s.closed then none
      else if s.toSend.isEmpty then some { s with closed := true } else none
  | Step.take w =>
      match s.intake with
      | [] => none
      | j :: rest =>
          match s.workers[w]? with
          | some none => some { s with intake := rest, workers := s.workers.set w (some j) }
          | _ => none
  | Step.push w =>
      match s.workers[w]? with
      | some (some j) =>
          some { s with workers := s.workers.set w none, outtake := s.outtake ++ [f j] }
      | _ => none

/-- Run a whole schedule of events from a state; `none` if some event in the
schedule is not enabled when its turn comes. -/
def execTrace (f : Int → Int) : PoolState → List Step → Option PoolState
  | s, [] => some s
  | s, a :: as =>
      match execStep f s a with
      | none => none
      | some s' => execTrace f s' as

/-- Initial state of `demonstrateWorkerPool` generalised to `N` jobs and `W`
workers: the producer still has to send `1..N`, the jobs channel is open and
empty, every worker is idle, no results yet. -/
def initState (N : Int) (W : Nat) : PoolState :=
  { toSend := generateNumbers N
    closed := false
    intake := []
    workers := List.replicate W none
    outtake := [] }

/-- A state in which the pool has finished: all jobs sent, jobs channel
closed and drained, and every worker idle (its `range` loop has exited). -/
def isTerminal (s : PoolState) : Bool :=
  s.toSend.isEmpty && s.closed && s.intake.isEmpty && s.workers.all (fun o => o.isNone)

/-- The jobs still in flight: not yet sent, buffered in the jobs channel, or
held by a worker. -/
def inFlight (s : PoolState) : List Int :=
  s.toSend ++ s.intake ++ s.workers.filterMap id

/-- The values a schedule makes the producer enqueue, in order. -/
def sentValues (as : List Step) : List Int :=
  as.filterMap fun a =>
    match a with
    | Step.send j => some j
    | _ => none

/-- How many times a schedule closes the jobs channel. -/
def closeCount (as : List Step) : Nat :=
  (as.filter fun a =>
    match a with
    | Step.closeJobs => true
    | _ => false).length

/-- The canonical strictly sequential schedule: send everything, close, then
worker `0` alone dequeues and pushes each job in order. -/
def consumeSteps : Nat → List Step
  | 0 => []
  | n + 1 => Step.take 0 :: Step.push 0 :: consumeSteps n

/-- Full sequential schedule for a job list. -/
def canonicalSchedule (jobs : List Int) : List Step :=
  jobs.map Step.send ++ Step.closeJobs :: consumeSteps jobs.length

/-- Invariant maintained by every step: once the jobs channel is closed the
producer has nothing left to send, and the worker count never changes. -/
def PoolInv (W : Nat) (s : PoolState) : Prop :=
  (s.closed = true → s.toSend = []) ∧ s.workers.length = W

/-! ## The JSON/REST lesson (lesson10): data model -/

/-- `User` struct of lesson10.  `time.Time` is abstracted to a `Nat`
timestamp. -/
structure User where
  id : Int
  name : String
  email : String
  age : Int
  createdAt : Nat
  updatedAt : Nat
deriving DecidableEq

/-- `CreateUserRequest` struct of lesson10. -/
structure CreateUserRequest where
  name : String
  email : String
  age : Int
deriving DecidableEq

/-- `UpdateUserRequest` struct of lesson10: each field optional
(`*string` / `*int` with `omitempty`). -/
structure UpdateUserRequest where
  name : Option String
  email : Option String
  age : Option Int
deriving DecidableEq

/-- `ValidationError` struct of lesson10. -/
structure ValidationError where
  field : String
  message : String
deriving DecidableEq

/-- The observable part of an HTTP response produced by the handlers:
status code, validation details, error message, returned user. -/
structure Response where
  status : Nat
  details : List ValidationError
  errorMsg : Option String
  user : Option User
deriving DecidableEq

/-- The server's global mutable state: the `users` map (modelled as an
association list keyed by ID) and the `nextUserID` counter. -/
structure ServerState where
  users : List (Int × User)
  nextUserID : Int
deriving DecidableEq

/-- Lookup in the `users` map (`users[userID]`). -/
def mapLookup : List (Int × User) → Int → Option User
  | [], _ => none
  | (k', v) :: rest, k => if k' = k then some v else mapLookup rest k

/-- Write into the `users` map (`users[k] = v`): replaces the binding if the
key is present, appends it otherwise. -/
def mapSet : List (Int × User) → Int → User → List (Int × User)
  | [], k, v => [(k, v)]
  | (k', v') :: rest, k, v =>
      if k' = k then (k, v) :: mapSet rest k v
      else (k', v') :: mapSet rest k v

/-- `strings.TrimSpace`: removes leading and trailing whitespace. -/
def trimSpace (s : String) : String :=
  ⟨((s.data.dropWhile Char.isWhitespace).reverse.dropWhile Char.isWhitespace).reverse⟩

/-- `strings.Contains(s, "@")` for a single-character pattern: the character
occurs among the characters of `s`. -/
def containsChar (s : String) (c : Char) : Bool := s.data.contains c

/-- `validateCreateUserRequest` of lesson10: name must be non-blank, email
must be non-blank and contain `@`, age must lie in `0..150`.  Errors are
accumulated in source order. -/
def validateCreateUserRequest (req : CreateUserRequest) : List ValidationError :=
  (if trimSpace req.name = "" then
    [{ field := "name", message := "Name is required" }]
   else []) ++
  (if trimSpace req.email = "" then
    [{ field := "email", message := "Email is required" }]
   else if ¬ containsChar req.email '@' then
    [{ field := "email", message := "Invalid email format" }]
   else []) ++
  (if req.age < 0 ∨ req.age > 150 then
    [{ field := "age", message := "Age must be between 0 and 150" }]
   else [])

/-- `createUser` of lesson10 as a pure state transformer.  `body = none`
models an unreadable or unparsable request body (both answered with 400);
otherwise the request is validated, and on success a user with ID
`nextUserID` is stored and the counter incremented.  `now` stands for
`time.Now()`. -/
def createUser (st : ServerState) (body : Option CreateUserRequest) (now : Nat) :
    ServerState × Response :=
  match body with
  | none => (st, { status := 400, details := [], errorMsg := some "Invalid JSON format", user := none })
  | some req =>
      let errs := validateCreateUserRequest req
      if errs.length > 0 then
        (st, { status := 400, details := errs, errorMsg := some "Validation failed", user := none })
      else
        let user : User :=
          { id := st.nextUserID, name := req.name, email := req.email, age := req.age
            createdAt := now, updatedAt := now }
        ({ users := mapSet st.users st.nextUserID user, nextUserID := st.nextUserID + 1 },
         { status := 201, details := [], errorMsg := none, user := some user })

/-- `updateUser` of lesson10 as a pure state transformer: 404 if the user
does not exist, 400 if the body cannot be parsed, otherwise each field
present in the request overwrites the stored one, `UpdatedAt` is set to
`now`, and the user is written back under the same ID. -/
def updateUser (st : ServerState) (userID : Int) (body : Option UpdateUserRequest) (now : Nat) :
    ServerState × Response :=
  match mapLookup st.users userID with
  | none => (st, { status := 404, details := [], errorMsg := some "User not found", user := none })
  | some user =>
      match body with
      | none => (st, { status := 400, details := [], errorMsg := some "Invalid JSON format", user := none })
      | some req =>
          let user' : User :=
            { user with
              name := req.name.getD user.name
              email := req.email.getD user.email
              age := req.age.getD user.age
              updatedAt := now }
          ({ st with users := mapSet st.users userID user' },
           { status := 200, details := [], errorMsg := none, user := some user' })

/-! ## Lemmas about the users map -/

lemma mapLookup_mapSet_self (m : List (Int × User)) (k : Int) (v : User) :
    mapLookup (mapSet m k v) k = some v := by
  induction m with
  | nil => simp [mapSet, mapLookup]
  | cons p rest ih =>
      obtain ⟨k', v'⟩ := p
      by_cases hk : k' = k
      · simp [mapSet, mapLookup, hk]
      · simp [mapSet, mapLookup, hk, ih]

lemma mapLookup_mapSet_ne (m : List (Int × User)) (k k' : Int) (v : User) (h : k' ≠ k) :
    mapLookup (mapSet m k v) k' = mapLookup m k' := by
  induction m with
  | nil => simp [mapSet, mapLookup, Ne.symm h]
  | cons p rest ih =>
      obtain ⟨k'', v''⟩ := p
      by_cases hk : k'' = k
      · subst hk
        simp [mapSet, mapLookup, Ne.symm h, ih]
      · simp only [mapSet, if_neg hk]
        by_cases hk' : k'' = k'
        · simp [mapLookup, hk']
        · simp [mapLookup, hk', ih]

/-- If validation fails, `createUser` answers 400 with the validation details
and leaves the state untouched. -/
lemma createUser_of_errors (st : ServerState) (req : CreateUserRequest) (now : Nat)
    (herr : 0 < (validateCreateUserRequest req).length) :
    createUser st (some req) now =
      (st, { status := 400, details := validateCreateUserRequest req,
             errorMsg := some "Validation failed", user := none }) := by
  simp [createUser, herr]

/-! ## Lemmas about single pool steps -/

lemma execStep_send_spec (f : Int → Int) (s s' : PoolState) (j : Int)
    (h : execStep f s (Step.send j) = some s') :
    ∃ rest, s.closed = false ∧ s.toSend = j :: rest ∧
      s' = ⟨rest, false, s.intake ++ [j], s.workers, s.outtake⟩ := by
  obtain ⟨ts, cl, ik, ws, ot⟩ := s
  cases ts with
  | nil => simp [execStep] at h
  | cons j' rest =>
      cases cl with
      | true => simp [execStep] at h
      | false =>
          by_cases hj : j = j'
          · subst hj
            simp [execStep] at h
            exact ⟨rest, rfl, rfl, h.symm⟩
          · simp [execStep, hj] at h

lemma execStep_close_spec (f : Int → Int) (s s' : PoolState)
    (h : execStep f s Step.closeJobs = some s') :
    s.closed = false ∧ s.toSend = [] ∧
      s' = ⟨[], true, s.intake, s.workers, s.outtake⟩ := by
  obtain ⟨ts, cl, ik, ws, ot⟩ := s
  cases cl with
  | true => simp [execStep] at h
  | false =>
      cases ts with
      | nil => simp [execStep] at h; exact ⟨rfl, rfl, h.symm⟩
      | cons j rest => simp [execStep] at h

lemma execStep_take_spec (f : Int → Int) (s s' : PoolState) (w : Nat)
    (h : execStep f s (Step.take w) = some s') :
    ∃ j rest, s.intake = j :: rest ∧ s.workers[w]? = some none ∧
      s' = ⟨s.toSend, s.closed, rest, s.workers.set w (some j), s.outtake⟩ := by
  obtain ⟨ts, cl, ik, ws, ot⟩ := s
  cases ik with
  | nil => simp [execStep] at h
  | cons j rest =>
      cases hw : ws[w]? with
      | none => simp [execStep, hw] at h
      | some o =>
          cases o with
          | none =>
              simp [execStep, hw] at h
              exact ⟨j, rest, rfl, rfl, h.symm⟩
          | some b => simp [execStep, hw] at h

lemma execStep_push_spec (f : Int → Int) (s s' : PoolState) (w : Nat)
    (h : execStep f s (Step.push w) = some s') :
    ∃ j, s.workers[w]? = some (some j) ∧
      s' = ⟨s.toSend, s.closed, s.intake, s.workers.set w none, s.outtake ++ [f j]⟩ := by
  obtain ⟨ts, cl, ik, ws, ot⟩ := s
  cases hw : ws[w]? with
  | none => simp [execStep, hw] at h
  | some o =>
      cases o with
      | none => simp [execStep, hw] at h
      | some j =>
          simp [execStep, hw] at h
          exact ⟨j, rfl, h.symm⟩

/-! ## Lemmas about whole traces -/

lemma execTrace_append_of (f : Int → Int) (as bs : List Step) (s s₁ s₂ : PoolState)
    (h1 : execTrace f s as = some s₁) (h2 : execTrace f s₁ bs = some s₂) :
    execTrace f s (as ++ bs) = some s₂ := by
  induction as generalizing s with
  | nil =>
      simp only [execTrace] at h1
      cases h1
      simpa using h2
  | cons a as ih =>
      simp only [execTrace] at h1 ⊢
      cases ha : execStep f s a with
      | none => rw [ha] at h1; cases h1
      | some s' =>
          rw [ha] at h1
          simpa using ih s' h1

lemma execTrace_append_inv (f : Int → Int) (as bs : List Step) (s s₂ : PoolState)
    (h : execTrace f s (as ++ bs) = some s₂) :
    ∃ s₁, execTrace f s as = some s₁ ∧ execTrace f s₁ bs = some s₂ := by
  induction as generalizing s with
  | nil => exact ⟨s, rfl, by simpa using h⟩
  | cons a as ih =>
      simp only [List.cons_append, execTrace] at h ⊢
      cases ha : execStep f s a with
      | none => rw [ha] at h; cases h
      | some s' =>
          rw [ha] at h
          exact ih s' h

/-- Jobs held by idle-to-busy transition: setting an idle slot to a job adds
that job to the multiset of held jobs. -/
lemma filterMap_set_insert (l : List (Option Int)) (w : Nat) (j : Int)
    (h : l[w]? = some none) :
    (((l.set w (some j)).filterMap id : List Int) : Multiset Int) =
      j ::ₘ ((l.filterMap id : List Int) : Multiset Int) := by
  induction l generalizing w with
  | nil => simp at h
  | cons o t ih =>
      cases w with
      | zero =>
          simp only [List.getElem?_cons_zero, Option.some.injEq] at h
          subst h
          simp [List.set]
      | succ w =>
          simp only [List.getElem?_cons_succ] at h
          cases o with
          | none => simpa [List.set] using ih w h
          | some b =>
              simp only [List.set, List.filterMap_cons, id_eq]
              rw [← Multiset.cons_coe, ← Multiset.cons_coe, ih w h]
              exact Multiset.cons_swap b j _

/-- Busy-to-idle transition: clearing a busy slot removes its job from the
multiset of held jobs. -/
lemma filterMap_set_remove (l : List (Option Int)) (w : Nat) (j : Int)
    (h : l[w]? = some (some j)) :
    ((l.filterMap id : List Int) : Multiset Int) =
      j ::ₘ (((l.set w none).filterMap id : List Int) : Multiset Int) := by
  induction l generalizing w with
  | nil => simp at h
  | cons o t ih =>
      cases w with
      | zero =>
          simp only [List.getElem?_cons_zero, Option.some.injEq] at h
          subst h
          simp [List.set]
      | succ w =>
          simp only [List.getElem?_cons_succ] at h
          cases o with
          | none => simpa [List.set] using ih w h
          | some b =>
              simp only [List.set, List.filterMap_cons, id_eq]
              rw [← Multiset.cons_coe, ← Multiset.cons_coe, ih w h]
              exact Multiset.cons_swap b j _

/-- Conservation: no step creates or destroys a job — the multiset of
transformed in-flight jobs plus collected results is invariant. -/
lemma execStep_conservation (f : Int → Int) (s s' : PoolState) (a : Step)
    (h : execStep f s a = some s') :
    (((inFlight s').map f : List Int) : Multiset Int) + (s'.outtake : Multiset Int) =
      (((inFlight s).map f : List Int) : Multiset Int) + (s.outtake : Multiset Int) := by
  cases a with
  | send j =>
      obtain ⟨rest, hcl, hts, rfl⟩ := execStep_send_spec f s s' j h
      simp only [inFlight, hts, List.map_append, List.map_cons, List.map_nil,
        ← Multiset.coe_add, ← Multiset.cons_coe, Multiset.coe_nil, ← Multiset.singleton_add]
      abel
  | closeJobs =>
      obtain ⟨hcl, hts, rfl⟩ := execStep_close_spec f s s' h
      simp [inFlight, hts]
  | take w =>
      obtain ⟨j, rest, hik, hw, rfl⟩ := execStep_take_spec f s s' w h
      have hins' : ((List.map f ((s.workers.set w (some j)).filterMap id) : List Int) : Multiset Int) =
          f j ::ₘ ((List.map f (s.workers.filterMap id) : List Int) : Multiset Int) := by
        rw [← Multiset.map_coe, ← Multiset.map_coe, filterMap_set_insert s.workers w j hw,
          Multiset.map_cons]
      simp only [inFlight, hik, List.map_append, List.map_cons, List.map_nil,
        ← Multiset.coe_add, ← Multiset.cons_coe, Multiset.coe_nil, ← Multiset.singleton_add]
      rw [hins', ← Multiset.singleton_add]
      abel
  | push w =>
      obtain ⟨j, hw, rfl⟩ := execStep_push_spec f s s' w h
      have hrem' : ((List.map f (s.workers.filterMap id) : List Int) : Multiset Int) =
          f j ::ₘ ((List.map f ((s.workers.set w none).filterMap id) : List Int) : Multiset Int) := by
        rw [← Multiset.map_coe, ← Multiset.map_coe, filterMap_set_remove s.workers w j hw,
          Multiset.map_cons]
      simp only [inFlight, List.map_append, List.map_cons, List.map_nil,
        ← Multiset.coe_add, ← Multiset.cons_coe, Multiset.coe_nil, ← Multiset.singleton_add]
      rw [hrem', ← Multiset.singleton_add]
      abel

lemma execTrace_conservation (f : Int → Int) (s s' : PoolState) (as : List Step)
    (h : execTrace f s as = some s') :
    (((inFlight s').map f : List Int) : Multiset Int) + (s'.outtake : Multiset Int) =
      (((inFlight s).map f : List Int) : Multiset Int) + (s.outtake : Multiset Int) := by
  induction as generalizing s with
  | nil => simp only [execTrace] at h; cases h; rfl
  | cons a as ih =>
      simp only [execTrace] at h
      cases ha : execStep f s a with
      | none => rw [ha] at h; cases h
      | some s₁ =>
          rw [ha] at h
          rw [ih s₁ h]
          exact execStep_conservation f s s₁ a ha

lemma isTerminal_spec (s : PoolState) (h : isTerminal s = true) :
    s.toSend = [] ∧ s.closed = true ∧ s.intake = [] ∧ ∀ o ∈ s.workers, o = none := by
  simp only [isTerminal, Bool.and_eq_true, List.isEmpty_iff, List.all_eq_true,
    Option.isNone_iff_eq_none] at h
  tauto

lemma filterMap_id_eq_nil (l : List (Option Int)) (h : ∀ o ∈ l, o = none) :
    l.filterMap id = [] := by
  induction l with
  | nil => rfl
  | cons o t ih =>
      have ho := h o (by simp)
      subst ho
      simpa using ih (fun o' ho' => h o' (by simp [ho']))

/-- Whatever complete schedule the pool follows, the collected results are
exactly the transformed generated jobs, as a multiset. -/
lemma terminal_outtake (f : Int → Int) (N : Int) (W : Nat) (as : List Step) (s : PoolState)
    (hrun : execTrace f (initState N W) as = some s) (hterm : isTerminal s = true) :
    (s.outtake : Multiset Int) = (((generateNumbers N).map f : List Int) : Multiset Int) := by
  have hcons := execTrace_conservation f _ s as hrun
  obtain ⟨h1, _, h3, h4⟩ := isTerminal_spec s hterm
  have hfin : inFlight s = [] := by
    simp [inFlight, h1, h3, filterMap_id_eq_nil s.workers h4]
  have hini : inFlight (initState N W) = generateNumbers N := by
    simp [inFlight, initState, filterMap_id_eq_nil (List.replicate W none)
      (fun o ho => (List.eq_of_mem_replicate ho))]
  rw [hfin, hini] at hcons
  simpa [initState] using hcons

/-- The producer's sends pull the pending jobs off in order: across any run,
the values sent so far are a front segment of the pending list. -/
lemma execTrace_sentValues (f : Int → Int) (s s' : PoolState) (as : List Step)
    (h : execTrace f s as = some s') :
    s.toSend = sentValues as ++ s'.toSend := by
  induction as generalizing s with
  | nil =>
      simp only [execTrace] at h
      cases h
      simp [sentValues]
  | cons a as ih =>
      simp only [execTrace] at h
      cases ha : execStep f s a with
      | none => rw [ha] at h; cases h
      | some s₁ =>
          rw [ha] at h
          have h2 := ih s₁ h
          cases a with
          | send j =>
              obtain ⟨rest, _, hts, rfl⟩ := execStep_send_spec f s s₁ j ha
              simp only [sentValues, List.filterMap_cons] at h2 ⊢
              rw [hts]
              simpa using h2
          | closeJobs =>
              obtain ⟨_, hts, rfl⟩ := execStep_close_spec f s s₁ ha
              simp only [sentValues, List.filterMap_cons] at h2 ⊢
              rw [hts]
              simpa using h2
          | take w =>
              obtain ⟨j, rest, _, _, rfl⟩ := execStep_take_spec f s s₁ w ha
              simpa [sentValues, List.filterMap_cons] using h2
          | push w =>
              obtain ⟨j, _, rfl⟩ := execStep_push_spec f s s₁ w ha
              simpa [sentValues, List.filterMap_cons] using h2

/-- Once the jobs channel is closed, the producer neither sends nor closes
again, and the channel stays closed. -/
lemma execTrace_closed_no_producer (f : Int → Int) (s s' : PoolState) (as : List Step)
    (h : execTrace f s as = some s') (hc : s.closed = true) :
    sentValues as = [] ∧ closeCount as = 0 ∧ s'.closed = true := by
  induction as generalizing s with
  | nil =>
      simp only [execTrace] at h
      cases h
      exact ⟨rfl, rfl, hc⟩
  | cons a as ih =>
      simp only [execTrace] at h
      cases ha : execStep f s a with
      | none => rw [ha] at h; cases h
      | some s₁ =>
          rw [ha] at h
          cases a with
          | send j =>
              obtain ⟨rest, hcl, _, _⟩ := execStep_send_spec f s s₁ j ha
              rw [hc] at hcl
              cases hcl
          | closeJobs =>
              obtain ⟨hcl, _, _⟩ := execStep_close_spec f s s₁ ha
              rw [hc] at hcl
              cases hcl
          | take w =>
              obtain ⟨j, rest, _, _, rfl⟩ := execStep_take_spec f s s₁ w ha
              have h3 := ih _ h hc
              simpa [sentValues, closeCount, List.filterMap_cons, List.filter_cons] using h3
          | push w =>
              obtain ⟨j, _, rfl⟩ := execStep_push_spec f s s₁ w ha
              have h3 := ih _ h hc
              simpa [sentValues, closeCount, List.filterMap_cons, List.filter_cons] using h3

/-- Starting from an open jobs channel, a run closes it exactly once if it
ends closed, and never otherwise. -/
lemma execTrace_closeCount (f : Int → Int) (s s' : PoolState) (as : List Step)
    (h : execTrace f s as = some s') (hc : s.closed = false) :
    closeCount as = if s'.closed = true then 1 else 0 := by
  induction as generalizing s with
  | nil =>
      simp only [execTrace] at h
      cases h
      simp [closeCount, hc]
  | cons a as ih =>
      simp only [execTrace] at h
      cases ha : execStep f s a with
      | none => rw [ha] at h; cases h
      | some s₁ =>
          rw [ha] at h
          cases a with
          | send j =>
              obtain ⟨rest, _, _, rfl⟩ := execStep_send_spec f s s₁ j ha
              simpa [closeCount, List.filter_cons] using ih _ h rfl
          | closeJobs =>
              obtain ⟨_, _, rfl⟩ := execStep_close_spec f s s₁ ha
              obtain ⟨_, hcc, hcl'⟩ := execTrace_closed_no_producer f _ s' as h rfl
              simp [closeCount, List.filter_cons, hcl']
              simpa [closeCount] using hcc
          | take w =>
              obtain ⟨j, rest, _, _, rfl⟩ := execStep_take_spec f s s₁ w ha
              simpa [closeCount, List.filter_cons] using ih _ h hc
          | push w =>
              obtain ⟨j, _, rfl⟩ := execStep_push_spec f s s₁ w ha
              simpa [closeCount, List.filter_cons] using ih _ h hc

/-- Once the jobs channel is closed and drained, an idle worker never steps
again: its `for job := range jobs` loop has terminated. -/
lemma drained_no_worker_steps (f : Int → Int) (s s' : PoolState) (cs : List Step) (w : Nat)
    (h : execTrace f s cs = some s') (hc : s.closed = true) (hi : s.intake = [])
    (hw : s.workers[w]? = some none) :
    Step.take w ∉ cs ∧ Step.push w ∉ cs := by
  induction cs generalizing s with
  | nil => simp
  | cons a cs ih =>
      simp only [execTrace] at h
      cases ha : execStep f s a with
      | none => rw [ha] at h; cases h
      | some s₁ =>
          rw [ha] at h
          cases a with
          | send j =>
              obtain ⟨rest, hcl, _, _⟩ := execStep_send_spec f s s₁ j ha
              rw [hc] at hcl
              cases hcl
          | closeJobs =>
              obtain ⟨hcl, _, _⟩ := execStep_close_spec f s s₁ ha
              rw [hc] at hcl
              cases hcl
          | take w' =>
              obtain ⟨j, rest, hik, _, _⟩ := execStep_take_spec f s s₁ w' ha
              rw [hi] at hik
              cases hik
          | push w' =>
              obtain ⟨j, hw', rfl⟩ := execStep_push_spec f s s₁ w' ha
              have hne : w' ≠ w := by
                intro he
                subst he
                rw [hw] at hw'
                simp at hw'
              have hw₁ : (s.workers.set w' none)[w]? = some none := by
                rw [List.getElem?_set_ne hne]
                exact hw
              obtain ⟨h1, h2⟩ := ih _ h hc hi hw₁
              refine ⟨?_, ?_⟩
              · intro hmem
                rcases List.mem_cons.mp hmem with he | he
                · cases he
                · exact h1 he
              · intro hmem
                rcases List.mem_cons.mp hmem with he | he
                · injection he with hww
                  exact hne hww.symm
                · exact h2 he

/-- From any reachable non-terminal state some event is enabled: the pool
cannot deadlock. -/
lemma pool_progress (f : Int → Int) (W : Nat) (s : PoolState) (hW : 1 ≤ W)
    (hinv : PoolInv W s) (hnt : isTerminal s = false) :
    ∃ a s', execStep f s a = some s' := by
  obtain ⟨ts, cl, ik, ws, ot⟩ := s
  obtain ⟨hct, hlen⟩ := hinv
  have hlen' : ws.length = W := hlen
  cases ts with
  | cons j rest =>
      have hcl : cl = false := by
        cases cl
        · rfl
        · simpa using hct rfl
      subst hcl
      exact ⟨Step.send j, ⟨rest, false, ik ++ [j], ws, ot⟩, by simp [execStep]⟩
  | nil =>
      cases cl with
      | false => exact ⟨Step.closeJobs, ⟨[], true, ik, ws, ot⟩, by simp [execStep]⟩
      | true =>
          cases ik with
          | cons j rest =>
              rcases Classical.em (∃ w : Nat, ws[w]? = some none) with hidle | hidle
              · obtain ⟨w, hw⟩ := hidle
                exact ⟨Step.take w, ⟨[], true, rest, ws.set w (some j), ot⟩,
                  by simp [execStep, hw]⟩
              · push_neg at hidle
                have h0 : 0 < ws.length := by omega
                have ho : ws[0]? = some ws[0] := List.getElem?_eq_getElem h0
                cases hcase : ws[0] with
                | none =>
                    rw [hcase] at ho
                    exact absurd ho (hidle 0)
                | some j' =>
                    rw [hcase] at ho
                    exact ⟨Step.push 0, ⟨[], true, j :: rest, ws.set 0 none, ot ++ [f j']⟩,
                      by simp [execStep, ho]⟩
          | nil =>
              have hbusy : ¬ ∀ o ∈ ws, o = none := by
                intro hall
                have hterm : isTerminal ⟨[], true, [], ws, ot⟩ = true := by
                  simp only [isTerminal]
                  simp [List.all_eq_true]
                  intro o ho
                  simp [hall o ho]
                rw [hterm] at hnt
                cases hnt
              push_neg at hbusy
              obtain ⟨o, hmem, hne⟩ := hbusy
              obtain ⟨w, hw⟩ := List.mem_iff_getElem?.mp hmem
              cases o with
              | none => exact absurd rfl hne
              | some j =>
                  exact ⟨Step.push w, ⟨[], true, [], ws.set w none, ot ++ [f j]⟩,
                    by simp [execStep, hw]⟩

lemma execStep_inv (f : Int → Int) (W : Nat) (s s' : PoolState) (a : Step)
    (h : execStep f s a = some s') (hinv : PoolInv W s) : PoolInv W s' := by
  obtain ⟨hct, hlen⟩ := hinv
  cases a with
  | send j =>
      obtain ⟨rest, hcl, hts, rfl⟩ := execStep_send_spec f s s' j h
      exact ⟨(fun hcf => nomatch hcf), hlen⟩
  | closeJobs =>
      obtain ⟨_, _, rfl⟩ := execStep_close_spec f s s' h
      exact ⟨fun _ => rfl, hlen⟩
  | take w =>
      obtain ⟨j, rest, _, _, rfl⟩ := execStep_take_spec f s s' w h
      exact ⟨hct, by simpa [List.length_set] using hlen⟩
  | push w =>
      obtain ⟨j, _, rfl⟩ := execStep_push_spec f s s' w h
      exact ⟨hct, by simpa [List.length_set] using hlen⟩

lemma execTrace_inv (f : Int → Int) (W : Nat) (s s' : PoolState) (as : List Step)
    (h : execTrace f s as = some s') (hinv : PoolInv W s) : PoolInv W s' := by
  induction as generalizing s with
  | nil => simp only [execTrace] at h; cases h; exact hinv
  | cons a as ih =>
      simp only [execTrace] at h
      cases ha : execStep f s a with
      | none => rw [ha] at h; cases h
      | some s₁ =>
          rw [ha] at h
          exact ih s₁ h (execStep_inv f W s s₁ a ha hinv)

lemma initState_inv (N : Int) (W : Nat) : PoolInv W (initState N W) :=
  ⟨(fun hcf => nomatch hcf), by simp [initState]⟩

/-- Running the producer's whole send phase. -/
lemma exec_sends (f : Int → Int) (l buf out : List Int) (ws : List (Option Int)) :
    execTrace f ⟨l, false, buf, ws, out⟩ (l.map Step.send) =
      some ⟨[], false, buf ++ l, ws, out⟩ := by
  induction l generalizing buf with
  | nil => simp [execTrace]
  | cons j rest ih =>
      simp only [List.map_cons, execTrace, execStep]
      simp only [Bool.false_eq_true, if_false, if_pos rfl]
      simpa [List.append_assoc] using ih (buf ++ [j])

/-- Running worker 0 alone over the whole drained channel. -/
lemma exec_consume (f : Int → Int) (l out : List Int) (ws : List (Option Int)) :
    execTrace f ⟨[], true, l, none :: ws, out⟩ (consumeSteps l.length) =
      some ⟨[], true, [], none :: ws, out ++ l.map f⟩ := by
  induction l generalizing out with
  | nil => simp [execTrace, consumeSteps]
  | cons j rest ih =>
      simp only [List.length_cons, consumeSteps, execTrace, execStep]
      simp only [List.getElem?_cons_zero, List.set]
      simpa [List.append_assoc] using ih (out ++ [f j])

/-! ## Claim theorems: pipeline, aggregation, REST handlers -/

/-- C10: the single-stage pipeline preserves order: for every count ≥ 0,
composing `generateNumbers` with `squareNumbers` yields exactly the squares
1², 2², ..., count² in ascending order of the generated inputs. -/
theorem pipeline_preserves_order (count : Int) (hc : 0 ≤ count) :
    squareNumbers (generateNumbers count) =
      (List.range count.toNat).map (fun (i : Nat) => ((i : Int) + 1) * ((i : Int) + 1)) ∧
    (squareNumbers (generateNumbers count)).Pairwise (· < ·) := by
  have h1 : squareNumbers (generateNumbers count) =
      (List.range count.toNat).map (fun (i : Nat) => ((i : Int) + 1) * ((i : Int) + 1)) := by
    simp [squareNumbers, generateNumbers, List.map_map, Function.comp]
  refine ⟨h1, ?_⟩
  rw [h1]
  refine List.Pairwise.map (fun i : Nat => ((i : Int) + 1) * ((i : Int) + 1)) ?_
    (List.pairwise_lt_range count.toNat)
  intro a b hab
  have ha : (0 : Int) ≤ (a : Int) + 1 := by positivity
  have hlt : (a : Int) + 1 < (b : Int) + 1 := by omega
  exact mul_self_lt_mul_self ha hlt

/-- Witness for C10 at count = 4. -/
theorem pipeline_preserves_order_witness :
    squareNumbers (generateNumbers 4) =
      (List.range (4 : Int).toNat).map (fun (i : Nat) => ((i : Int) + 1) * ((i : Int) + 1)) ∧
    (squareNumbers (generateNumbers 4)).Pairwise (· < ·) :=
  pipeline_preserves_order 4 (by decide)

/-- C6: the final aggregate is insensitive to the order in which workers pick
up jobs: for every permutation of the job list, the sum of the transformed
values equals the sum over the original list. -/
theorem workerPool_sum_order_insensitive (jobs jobs' : List Int) (h : jobs.Perm jobs') :
    (worker jobs).sum = (worker jobs').sum :=
  (h.map workerTransform).sum_eq

/-- Witness for C6 on the permutation [1,2,3] ~ [3,1,2]. -/
theorem workerPool_sum_order_insensitive_witness :
    (worker [1, 2, 3]).sum = (worker [3, 1, 2]).sum :=
  workerPool_sum_order_insensitive [1, 2, 3] [3, 1, 2] (by decide)

/-- C8: `createUser` is atomic on validation failure: a body with an empty
name, an empty or `@`-less email, or an age outside 0..150 is answered with
HTTP 400 and leaves the `users` map and the `nextUserID` counter unchanged. -/
theorem createUser_invalid_request_atomic (st : ServerState) (req : CreateUserRequest)
    (now : Nat)
    (h : req.name = "" ∨ req.email = "" ∨ containsChar req.email '@' = false ∨
         req.age < 0 ∨ req.age > 150) :
    (createUser st (some req) now).1 = st ∧
    (createUser st (some req) now).2.status = 400 := by
  have herr : 0 < (validateCreateUserRequest req).length := by
    unfold validateCreateUserRequest
    simp only [List.length_append]
    rcases h with h | h | h | h | h
    · have h1 : (if trimSpace req.name = "" then
          [({ field := "name", message := "Name is required" } : ValidationError)]
          else []).length = 1 := by rw [h]; decide
      omega
    · have h1 : (if trimSpace req.email = "" then
          [({ field := "email", message := "Email is required" } : ValidationError)]
          else if ¬ containsChar req.email '@' then
          [({ field := "email", message := "Invalid email format" } : ValidationError)]
          else []).length = 1 := by rw [h]; decide
      omega
    · have h1 : (if trimSpace req.email = "" then
          [({ field := "email", message := "Email is required" } : ValidationError)]
          else if ¬ containsChar req.email '@' then
          [({ field := "email", message := "Invalid email format" } : ValidationError)]
          else []).length = 1 := by
        by_cases htrim : trimSpace req.email = ""
        · rw [if_pos htrim]; rfl
        · rw [if_neg htrim, if_pos (by simp [h])]; rfl
      omega
    · have h1 : (if req.age < 0 ∨ req.age > 150 then
          [({ field := "age", message := "Age must be between 0 and 150" } : ValidationError)]
          else []).length = 1 := by rw [if_pos (Or.inl h)]; rfl
      omega
    · have h1 : (if req.age < 0 ∨ req.age > 150 then
          [({ field := "age", message := "Age must be between 0 and 150" } : ValidationError)]
          else []).length = 1 := by rw [if_pos (Or.inr h)]; rfl
      omega
  rw [createUser_of_errors st req now herr]
  exact ⟨rfl, rfl⟩

/-- Witness for C8: empty name, otherwise valid request. -/
theorem createUser_invalid_request_atomic_witness :
    (createUser ⟨[], 1⟩ (some ⟨"", "a@b.com", 30⟩) 0).1 = (⟨[], 1⟩ : ServerState) ∧
    (createUser ⟨[], 1⟩ (some ⟨"", "a@b.com", 30⟩) 0).2.status = 400 :=
  createUser_invalid_request_atomic ⟨[], 1⟩ ⟨"", "a@b.com", 30⟩ 0 (Or.inl rfl)

/-- C9: `updateUser` on an existing user preserves the user's `ID` and
`CreatedAt` in every case, changes only the fields present in the request
plus `UpdatedAt`, leaves every other entry of the users map unchanged, and
does not touch `nextUserID`. -/
theorem updateUser_preserves_identity (st : ServerState) (userID : Int)
    (body : Option UpdateUserRequest) (now : Nat) (u : User)
    (hu : mapLookup st.users userID = some u) :
    ∃ u', mapLookup (updateUser st userID body now).1.users userID = some u' ∧
      u'.id = u.id ∧ u'.createdAt = u.createdAt ∧
      (updateUser st userID body now).1.nextUserID = st.nextUserID ∧
      (∀ k, k ≠ userID →
        mapLookup (updateUser st userID body now).1.users k = mapLookup st.users k) ∧
      (∀ req, body = some req →
        u'.name = req.name.getD u.name ∧ u'.email = req.email.getD u.email ∧
        u'.age = req.age.getD u.age ∧ u'.updatedAt = now) ∧
      (body = none → u' = u) := by
  cases body with
  | none =>
      refine ⟨u, ?_, rfl, rfl, ?_, ?_, ?_, ?_⟩
      · simp [updateUser, hu]
      · simp [updateUser, hu]
      · intro k _; simp [updateUser, hu]
      · intro req hreq; cases hreq
      · intro _; rfl
  | some req =>
      refine ⟨{ u with name := req.name.getD u.name, email := req.email.getD u.email,
                       age := req.age.getD u.age, updatedAt := now }, ?_, rfl, rfl, ?_, ?_, ?_, ?_⟩
      · simp [updateUser, hu, mapLookup_mapSet_self]
      · simp [updateUser, hu]
      · intro k hk
        simp only [updateUser, hu]
        exact mapLookup_mapSet_ne _ _ _ _ hk
      · intro req' hreq'
        cases hreq'
        exact ⟨rfl, rfl, rfl, rfl⟩
      · intro hnone; cases hnone

/-- Witness for C9: rename an existing user. -/
theorem updateUser_preserves_identity_witness :
    ∃ u', mapLookup (updateUser ⟨[(1, ⟨1, "John", "john@example.com", 25, 10, 10⟩)], 2⟩ 1
        (some ⟨some "Johnny", none, none⟩) 99).1.users 1 = some u' ∧
      u'.id = (⟨1, "John", "john@example.com", 25, 10, 10⟩ : User).id ∧
      u'.createdAt = (⟨1, "John", "john@example.com", 25, 10, 10⟩ : User).createdAt ∧
      (updateUser ⟨[(1, ⟨1, "John", "john@example.com", 25, 10, 10⟩)], 2⟩ 1
        (some ⟨some "Johnny", none, none⟩) 99).1.nextUserID =
        (⟨[(1, ⟨1, "John", "john@example.com", 25, 10, 10⟩)], 2⟩ : ServerState).nextUserID ∧
      (∀ k, k ≠ 1 →
        mapLookup (updateUser ⟨[(1, ⟨1, "John", "john@example.com", 25, 10, 10⟩)], 2⟩ 1
          (some ⟨some "Johnny", none, none⟩) 99).1.users k =
        mapLookup (⟨[(1, ⟨1, "John", "john@example.com", 25, 10, 10⟩)], 2⟩ : ServerState).users k) ∧
      (∀ req, (some ⟨some "Johnny", none, none⟩ : Option UpdateUserRequest) = some req →
        u'.name = req.name.getD "John" ∧ u'.email = req.email.getD "john@example.com" ∧
        u'.age = req.age.getD 25 ∧ u'.updatedAt = 99) ∧
      ((some ⟨some "Johnny", none, none⟩ : Option UpdateUserRequest) = none →
        u' = (⟨1, "John", "john@example.com", 25, 10, 10⟩ : User)) :=
  updateUser_preserves_identity ⟨[(1, ⟨1, "John", "john@example.com", 25, 10, 10⟩)], 2⟩ 1
    (some ⟨some "Johnny", none, none⟩) 99 ⟨1, "John", "john@example.com", 25, 10, 10⟩ rfl

/-- C1: for every job count N ≥ 0 and worker count W ≥ 1, any complete run of
the pool on the N sequentially generated jobs produces exactly N results, and
the multiset of results is the image of the N distinct jobs under the
transformation — no job is processed twice, none is lost. -/
theorem workerPool_processes_each_job_once (f : Int → Int) (N : Int) (W : Nat)
    (hN : 0 ≤ N) (hW : 1 ≤ W) (as : List Step) (s : PoolState)
    (hrun : execTrace f (initState N W) as = some s) (hterm : isTerminal s = true) :
    s.outtake.length = N.toNat ∧
    (s.outtake : Multiset Int) = (((generateNumbers N).map f : List Int) : Multiset Int) := by
  have hm := terminal_outtake f N W as s hrun hterm
  refine ⟨?_, hm⟩
  have hcard := congrArg Multiset.card hm
  simpa [Multiset.coe_card, generateNumbers] using hcard

/-- Witness for C1: N = 2, W = 1 with the sequential schedule. -/
theorem workerPool_processes_each_job_once_witness :
    (PoolState.mk [] true [] [none] [2, 4]).outtake.length = (2 : Int).toNat ∧
    ((PoolState.mk [] true [] [none] [2, 4]).outtake : Multiset Int) =
      (((generateNumbers 2).map workerTransform : List Int) : Multiset Int) :=
  workerPool_processes_each_job_once workerTransform 2 1 (by decide) (by decide)
    [Step.send 1, Step.send 2, Step.closeJobs, Step.take 0, Step.push 0,
     Step.take 0, Step.push 0]
    (PoolState.mk [] true [] [none] [2, 4]) (by decide) (by decide)

/-- C2: with the source's 9 jobs valued 1..9, 3 workers and the `job * 2`
transformation, any complete run yields the unordered result set
{2, 4, 6, 8, 10, 12, 14, 16, 18}, whose sum is 90. -/
theorem workerPool_demo_results (as : List Step) (s : PoolState)
    (hrun : execTrace workerTransform (initState numJobs numWorkers) as = some s)
    (hterm : isTerminal s = true) :
    (s.outtake : Multiset Int) = ({2, 4, 6, 8, 10, 12, 14, 16, 18} : Multiset Int) ∧
    s.outtake.sum = 90 := by
  have hm := terminal_outtake workerTransform numJobs numWorkers as s hrun hterm
  have hgen : (((generateNumbers numJobs).map workerTransform : List Int) : Multiset Int) =
      ({2, 4, 6, 8, 10, 12, 14, 16, 18} : Multiset Int) := by decide
  refine ⟨hm.trans hgen, ?_⟩
  have hperm : s.outtake.Perm [2, 4, 6, 8, 10, 12, 14, 16, 18] :=
    Multiset.coe_eq_coe.mp (hm.trans hgen)
  rw [hperm.sum_eq]
  decide

/-- Witness for C2: the sequential schedule on the demo configuration. -/
theorem workerPool_demo_results_witness :
    ((PoolState.mk [] true [] [none, none, none]
        [2, 4, 6, 8, 10, 12, 14, 16, 18]).outtake : Multiset Int) =
      ({2, 4, 6, 8, 10, 12, 14, 16, 18} : Multiset Int) ∧
    (PoolState.mk [] true [] [none, none, none]
        [2, 4, 6, 8, 10, 12, 14, 16, 18]).outtake.sum = 90 :=
  workerPool_demo_results
    [Step.send 1, Step.send 2, Step.send 3, Step.send 4, Step.send 5, Step.send 6,
     Step.send 7, Step.send 8, Step.send 9, Step.closeJobs,
     Step.take 0, Step.push 0, Step.take 0, Step.push 0, Step.take 0, Step.push 0,
     Step.take 0, Step.push 0, Step.take 0, Step.push 0, Step.take 0, Step.push 0,
     Step.take 0, Step.push 0, Step.take 0, Step.push 0, Step.take 0, Step.push 0]
    (PoolState.mk [] true [] [none, none, none] [2, 4, 6, 8, 10, 12, 14, 16, 18])
    (by decide) (by decide)

/-- C3: in any complete run, the producer enqueues exactly the sequential
integers 1..N in ascending order, closes the jobs channel exactly once, and
closes it only after all sends — no send follows the close. -/
theorem producer_contract (f : Int → Int) (N : Int) (W : Nat) (as : List Step)
    (s : PoolState)
    (hrun : execTrace f (initState N W) as = some s) (hterm : isTerminal s = true) :
    sentValues as = generateNumbers N ∧ closeCount as = 1 ∧
    ∀ bs cs, as = bs ++ Step.closeJobs :: cs → sentValues cs = [] := by
  obtain ⟨hts, hcl, _, _⟩ := isTerminal_spec s hterm
  refine ⟨?_, ?_, ?_⟩
  · have h := execTrace_sentValues f _ s as hrun
    rw [hts] at h
    simpa [initState] using h.symm
  · have h := execTrace_closeCount f _ s as hrun (by simp [initState])
    rw [h, hcl]
    rfl
  · intro bs cs hdec
    subst hdec
    obtain ⟨s₁, h1, h2⟩ := execTrace_append_inv f bs (Step.closeJobs :: cs) _ s hrun
    simp only [execTrace] at h2
    cases ha : execStep f s₁ Step.closeJobs with
    | none => rw [ha] at h2; cases h2
    | some s₂ =>
        rw [ha] at h2
        obtain ⟨_, _, rfl⟩ := execStep_close_spec f s₁ s₂ ha
        exact (execTrace_closed_no_producer f _ s cs h2 rfl).1

/-- Witness for C3: N = 1, W = 1 with the sequential schedule (the
universally quantified decomposition clause is instantiated by the claim
theorem itself). -/
theorem producer_contract_witness :
    sentValues [Step.send 1, Step.closeJobs, Step.take 0, Step.push 0] =
      generateNumbers 1 ∧
    closeCount [Step.send 1, Step.closeJobs, Step.take 0, Step.push 0] = 1 :=
  ⟨(producer_contract workerTransform 1 1
      [Step.send 1, Step.closeJobs, Step.take 0, Step.push 0]
      (PoolState.mk [] true [] [none] [2]) (by decide) (by decide)).1,
   (producer_contract workerTransform 1 1
      [Step.send 1, Step.closeJobs, Step.take 0, Step.push 0]
      (PoolState.mk [] true [] [none] [2]) (by decide) (by decide)).2.1⟩

/-- C4: a worker step never enqueues to the jobs channel and never closes it
(a take only removes the head, a push leaves the channel alone); a worker
with an available job can always take it; and once the jobs channel is
closed and empty an idle worker has terminated — no step of that worker ever
occurs in any continuation of the run. -/
theorem worker_contract (f : Int → Int) (s : PoolState) :
    (∀ w s', execStep f s (Step.take w) = some s' →
        s'.closed = s.closed ∧ ∃ j, s.intake = j :: s'.intake) ∧
    (∀ w s', execStep f s (Step.push w) = some s' →
        s'.closed = s.closed ∧ s'.intake = s.intake) ∧
    (∀ w j rest, s.intake = j :: rest → s.workers[w]? = some none →
        ∃ s', execStep f s (Step.take w) = some s') ∧
    (s.closed = true → s.intake = [] → ∀ w, s.workers[w]? = some none →
        ∀ cs s', execTrace f s cs = some s' →
          Step.take w ∉ cs ∧ Step.push w ∉ cs) := by
  refine ⟨?_, ?_, ?_, ?_⟩
  · intro w s' h
    obtain ⟨j, rest, hik, _, rfl⟩ := execStep_take_spec f s s' w h
    exact ⟨rfl, j, hik⟩
  · intro w s' h
    obtain ⟨j, _, rfl⟩ := execStep_push_spec f s s' w h
    exact ⟨rfl, rfl⟩
  · intro w j rest hik hw
    refine ⟨⟨s.toSend, s.closed, rest, s.workers.set w (some j), s.outtake⟩, ?_⟩
    simp [execStep, hik, hw]
  · intro hc hi w hw cs s' h
    exact drained_no_worker_steps f s s' cs w h hc hi hw

/-- Witness for C4: a closed, drained pool where worker 1 still pushes its
final result; idle worker 0 never steps. -/
theorem worker_contract_witness :
    Step.take 0 ∉ [Step.push 1] ∧ Step.push 0 ∉ [Step.push 1] :=
  (worker_contract workerTransform (PoolState.mk [] true [] [none, some 5] [])).2.2.2
    rfl rfl 0 (by decide) [Step.push 1]
    (PoolState.mk [] true [] [none, none] [10]) (by decide)

/-- C5: the transformation is a pure function of the job, so two complete
runs of the pool on identical input — under any two schedules — collect
equal unordered result sets. -/
theorem workerPool_runs_agree (f : Int → Int) (N : Int) (W : Nat)
    (as₁ as₂ : List Step) (s₁ s₂ : PoolState)
    (h₁ : execTrace f (initState N W) as₁ = some s₁) (ht₁ : isTerminal s₁ = true)
    (h₂ : execTrace f (initState N W) as₂ = some s₂) (ht₂ : isTerminal s₂ = true) :
    (s₁.outtake : Multiset Int) = (s₂.outtake : Multiset Int) := by
  rw [terminal_outtake f N W as₁ s₁ h₁ ht₁, terminal_outtake f N W as₂ s₂ h₂ ht₂]

/-- Witness for C5: two different schedules of 2 jobs over 2 workers collect
the results in different orders but as equal multisets. -/
theorem workerPool_runs_agree_witness :
    ((PoolState.mk [] true [] [none, none] [2, 4]).outtake : Multiset Int) =
      ((PoolState.mk [] true [] [none, none] [4, 2]).outtake : Multiset Int) :=
  workerPool_runs_agree workerTransform 2 2
    [Step.send 1, Step.send 2, Step.closeJobs, Step.take 0, Step.push 0,
     Step.take 0, Step.push 0]
    [Step.send 1, Step.send 2, Step.closeJobs, Step.take 0, Step.take 1,
     Step.push 1, Step.push 0]
    (PoolState.mk [] true [] [none, none] [2, 4])
    (PoolState.mk [] true [] [none, none] [4, 2])
    (by decide) (by decide) (by decide) (by decide)

/-- C7: the pool terminates for every N ≥ 0 and W ≥ 1: a complete schedule
exists (for W = 1 it is exactly the strictly sequential one, and N = 0
yields zero results), and from every reachable non-terminal state some step
is enabled, so the pool never deadlocks. -/
theorem workerPool_terminates (f : Int → Int) (N : Int) (W : Nat)
    (hN : 0 ≤ N) (hW : 1 ≤ W) :
    (∃ as s, execTrace f (initState N W) as = some s ∧ isTerminal s = true ∧
        s.outtake = (generateNumbers N).map f) ∧
    (∀ as s, execTrace f (initState N W) as = some s → isTerminal s = false →
        ∃ a s', execStep f s a = some s') := by
  constructor
  · obtain ⟨W', rfl⟩ : ∃ W', W = W' + 1 := ⟨W - 1, by omega⟩
    refine ⟨canonicalSchedule (generateNumbers N),
      ⟨[], true, [], List.replicate (W' + 1) none, (generateNumbers N).map f⟩,
      ?_, ?_, rfl⟩
    · have h1 := exec_sends f (generateNumbers N) [] [] (List.replicate (W' + 1) none)
      have h3 := exec_consume f (generateNumbers N) [] (List.replicate W' none)
      have h2 : execTrace f
          ⟨[], false, [] ++ generateNumbers N, List.replicate (W' + 1) none, []⟩
          (Step.closeJobs :: consumeSteps (generateNumbers N).length) =
          some ⟨[], true, [], List.replicate (W' + 1) none, (generateNumbers N).map f⟩ := by
        simp only [execTrace, execStep, List.nil_append]
        norm_num
        rw [List.replicate_succ]
        exact h3
      have hall := execTrace_append_of f _ _ _ _ _ h1 h2
      simpa [canonicalSchedule, initState] using hall
    · simp only [isTerminal]
      simp only [List.isEmpty_nil, Bool.true_and, Bool.and_true, List.all_eq_true]
      intro o ho
      simp [List.eq_of_mem_replicate ho]
  · intro as s hrun hnt
    exact pool_progress f W s hW (execTrace_inv f W _ s as hrun (initState_inv N W)) hnt

/-- Witness for C7 at the boundary N = 0, W = 1. -/
theorem workerPool_terminates_witness :
    (∃ as s, execTrace workerTransform (initState 0 1) as = some s ∧
        isTerminal s = true ∧
        s.outtake = (generateNumbers 0).map workerTransform) ∧
    (∀ as s, execTrace workerTransform (initState 0 1) as = some s →
        isTerminal s = false → ∃ a s', execStep workerTransform s a = some s') :=
  workerPool_terminates workerTransform 0 1 (by decide) (by decide)

end GolangLab
